import Mathlib

/-!
Verification of the fault-tolerant scheduling and streaming-detection core
of the data_factory repository: a shallow embedding in Lean 4 of the
CircuitBreaker, RetryPolicy and StreamBuffer components
(apps/api/app/core/streaming.py), the priority JobQueue
(apps/api/app/core/queue.py, whose heap operations are the CPython heapq
algorithms invoked by the source), the BatchJob progress model
(apps/api/app/models/batch_job.py), work-item generation
(apps/api/app/services/batch_processor.py) and the SpikeProcessor polling
loop (apps/api/app/services/spike_processor.py), together with proofs and
refutations of the specified properties.

Conventions: Python ints are `Int` (or `Nat` where the source value is a
count that is only ever incremented from 0 or reset to 0), Python floats
are `Rat`, wall-clock datetimes are `Int` time points, `await`ed fallible
calls are `Option`/`Except` values, and external collaborators (the fetch,
detection and notification functions) are explicit oracle parameters.
-/

namespace DataFactory

/-! ### StreamBuffer (streaming.py lines 239-298) -/

/-- Embedding of `StreamBuffer`: `_buffer` list, `max_size`, and the
`_items_added` / `_items_dropped` counters. -/
structure StreamBuffer (α : Type) where
  max_size : Nat
  buf : List α
  items_added : Nat
  items_dropped : Nat
deriving Repr, DecidableEq

/-- `StreamBuffer(max_size)` constructor: empty buffer, zero counters. -/
def StreamBuffer.mk0 (α : Type) (max_size : Nat) : StreamBuffer α :=
  ⟨max_size, [], 0, 0⟩

/-- `StreamBuffer.add`: append the item, bump `_items_added`, and if the
buffer now exceeds `max_size`, drop the oldest excess items
(`self._buffer = self._buffer[removed:]`) and add `removed` to
`_items_dropped`. -/
def StreamBuffer.add {α : Type} (b : StreamBuffer α) (item : α) : StreamBuffer α :=
  let buf := b.buf ++ [item]
  let added := b.items_added + 1
  if b.max_size < buf.length then
    let removed := buf.length - b.max_size
    { b with buf := buf.drop removed, items_added := added,
             items_dropped := b.items_dropped + removed }
  else
    { b with buf := buf, items_added := added }

/-- `StreamBuffer.get_batch`: return the first `n` items and keep the rest. -/
def StreamBuffer.get_batch {α : Type} (b : StreamBuffer α) (n : Nat) :
    List α × StreamBuffer α :=
  (b.buf.take n, { b with buf := b.buf.drop n })

/-! ### BatchJob progress (models/batch_job.py lines 149-154) -/

/-- Embedding of the progress-tracking fields of the `BatchJob` model:
`total_items`, `processed_items`, `failed_items` are Python ints,
`progress_percentage` a float (modelled as `Rat`). -/
structure BatchJobProgress where
  total_items : Int
  processed_items : Int
  failed_items : Int
  progress_percentage : Rat
deriving Repr, DecidableEq

/-- `BatchJob.update_progress(processed, failed)`: add to the two counters,
and only when `total_items > 0` recompute
`progress_percentage = processed_items / total_items * 100`
(the guard is what keeps a zero `total_items` from dividing by zero). -/
def BatchJobProgress.update_progress (j : BatchJobProgress)
    (processed failed : Int) : BatchJobProgress :=
  let j' := { j with processed_items := j.processed_items + processed,
                     failed_items := j.failed_items + failed }
  if 0 < j.total_items then
    { j' with progress_percentage :=
        ((j'.processed_items : Rat) / (j.total_items : Rat)) * 100 }
  else
    j'

/-! ### RetryPolicy (streaming.py lines 152-236) -/

/-- Embedding of `RetryPolicy.__init__` state: `max_retries`, the delay
parameters (floats, modelled as `Rat`) and the `jitter` flag. -/
structure RetryPolicy where
  max_retries : Nat
  initial_delay : Rat
  max_delay : Rat
  exponential_base : Rat
  backoff_factor : Rat
  jitter : Bool
deriving Repr, DecidableEq

/-- `RetryPolicy.__init__(max_retries, initial_delay, max_delay,
exponential_base, backoff_factor, jitter)`: the source sets
`self.exponential_base = backoff_factor if backoff_factor != 2.0 else
exponential_base` and then `self.backoff_factor = self.exponential_base`. -/
def mkRetryPolicy (max_retries : Nat) (initial_delay max_delay : Rat)
    (exponential_base backoff_factor : Rat) (jitter : Bool) : RetryPolicy :=
  let eb := if backoff_factor ≠ 2 then backoff_factor else exponential_base
  { max_retries := max_retries, initial_delay := initial_delay,
    max_delay := max_delay, exponential_base := eb, backoff_factor := eb,
    jitter := jitter }

/-- `RetryPolicy._calculate_delay(attempt)` with the value `r` drawn by
`random.random()` for this sleep supplied explicitly:
`min(initial_delay * exponential_base ** attempt, max_delay)`, multiplied
by `(0.5 + random())` when jitter is on. -/
def RetryPolicy.calculate_delay (p : RetryPolicy) (attempt : Nat) (r : Rat) : Rat :=
  let delay := min (p.initial_delay * p.exponential_base ^ attempt) p.max_delay
  if p.jitter then delay * (1/2 + r) else delay

/-- One run of the `for attempt in range(max_retries + 1)` loop of
`RetryPolicy.execute`, starting at loop index `attempt`.  The wrapped
async function is the oracle `f : Nat → Except E A` giving the outcome of
each invocation by its loop index, and `rand k` is the jitter draw for the
sleep that follows a failed attempt `k`.  Returns the final outcome (the
`raise last_exception` value on exhaustion), the number of invocations of
`f` performed, and the list of delays slept, in order. -/
def RetryPolicy.executeFrom {E A : Type} (p : RetryPolicy)
    (f : Nat → Except E A) (rand : Nat → Rat) (attempt : Nat) :
    Except E A × Nat × List Rat :=
  match f attempt with
  | .ok a => (.ok a, 1, [])
  | .error e =>
    if attempt < p.max_retries then
      let d := p.calculate_delay attempt (rand attempt)
      let rest := p.executeFrom f rand (attempt + 1)
      (rest.1, rest.2.1 + 1, d :: rest.2.2)
    else
      (.error e, 1, [])
termination_by p.max_retries - attempt

/-- `RetryPolicy.execute(func)`: run the retry loop from attempt 0. -/
def RetryPolicy.execute {E A : Type} (p : RetryPolicy)
    (f : Nat → Except E A) (rand : Nat → Rat) : Except E A × Nat × List Rat :=
  p.executeFrom f rand 0

/-! ### CircuitBreaker (streaming.py lines 19-149) -/

/-- `CircuitState`: CLOSED / OPEN / HALF_OPEN. -/
inductive CircuitState where
  | closed
  | opened
  | halfOpen
deriving Repr, DecidableEq

/-- `CircuitBreakerConfig` (the `timeout` float only bounds the awaited
call; a timed-out call surfaces as a failure outcome below). -/
structure CircuitBreakerConfig where
  failure_threshold : Nat
  recovery_timeout : Int
  success_threshold : Nat
deriving Repr, DecidableEq

/-- Embedding of the mutable `CircuitBreaker` fields; `last_failure_time`
is an absolute time point (`datetime.utcnow()` at the failure). -/
structure CircuitBreaker where
  config : CircuitBreakerConfig
  state : CircuitState
  failure_count : Nat
  success_count : Nat
  last_failure_time : Option Int
deriving Repr, DecidableEq

/-- `CircuitBreaker.__init__`: state CLOSED, both counters 0, no failure
recorded yet. -/
def CircuitBreaker.init (cfg : CircuitBreakerConfig) : CircuitBreaker :=
  ⟨cfg, .closed, 0, 0, none⟩

/-- `CircuitBreaker._should_attempt_reset`: true iff a failure time is
recorded and at least `recovery_timeout` seconds have elapsed. -/
def CircuitBreaker.should_attempt_reset (cb : CircuitBreaker) (now : Int) : Bool :=
  match cb.last_failure_time with
  | some t => cb.config.recovery_timeout ≤ now - t
  | none => false

/-- `CircuitBreaker._on_success`: while HALF_OPEN count the success and
close (resetting both counters) at `success_threshold`; while CLOSED reset
`failure_count`. -/
def CircuitBreaker.on_success (cb : CircuitBreaker) : CircuitBreaker :=
  match cb.state with
  | .halfOpen =>
    let sc := cb.success_count + 1
    if cb.config.success_threshold ≤ sc then
      { cb with state := .closed, failure_count := 0, success_count := 0 }
    else
      { cb with success_count := sc }
  | .closed => { cb with failure_count := 0 }
  | .opened => cb

/-- `CircuitBreaker._on_failure` at time `now`: count the failure
(`failure_count += 1`) and record its time; then, while HALF_OPEN, reopen
immediately resetting `success_count`; while CLOSED, open once the
incremented `failure_count >= failure_threshold`. -/
def CircuitBreaker.on_failure (cb : CircuitBreaker) (now : Int) : CircuitBreaker :=
  let fc := cb.failure_count + 1
  match cb.state with
  | .halfOpen =>
    { cb with failure_count := fc, last_failure_time := some now,
              state := .opened, success_count := 0 }
  | .closed =>
    if cb.config.failure_threshold ≤ fc then
      { cb with failure_count := fc, last_failure_time := some now,
                state := .opened }
    else
      { cb with failure_count := fc, last_failure_time := some now }
  | .opened =>
    { cb with failure_count := fc, last_failure_time := some now }

/-- Outcome of the awaited wrapped function; `asyncio.TimeoutError` takes
the same `_on_failure` path as any other exception. -/
inductive CallOutcome where
  | success
  | failure
deriving Repr, DecidableEq

/-- The state check at the top of `CircuitBreaker.call`: while OPEN,
either move to HALF_OPEN and proceed (reset timeout elapsed) or reject
without invoking the function (`none`, the raised `Circuit breaker is
OPEN` exception). -/
def CircuitBreaker.callPre (cb : CircuitBreaker) (now : Int) : Option CircuitBreaker :=
  match cb.state with
  | .opened =>
    if cb.should_attempt_reset now then some { cb with state := .halfOpen }
    else none
  | _ => some cb

/-- `CircuitBreaker.call` at time `now` with the wrapped function's
outcome given: `none` when the breaker rejects the call outright,
otherwise the breaker state after `_on_success` / `_on_failure`. -/
def CircuitBreaker.call (cb : CircuitBreaker) (now : Int) (outcome : CallOutcome) :
    Option CircuitBreaker :=
  (cb.callPre now).map fun cb' =>
    match outcome with
    | .success => cb'.on_success
    | .failure => cb'.on_failure now

/-- A sequence of calls through the breaker, all with the same outcome,
at the given times (`none` as soon as one is rejected). -/
def CircuitBreaker.callSeq (cb : CircuitBreaker) (outcome : CallOutcome) :
    List Int → Option CircuitBreaker
  | [] => some cb
  | t :: ts =>
    match cb.call t outcome with
    | some cb' => cb'.callSeq outcome ts
    | none => none

/-! ### SpikeProcessor polling loop (services/spike_processor.py)

One (instrument, timeframe) stream of `SpikeProcessor`, with the candle
type `C` and detected-event type `E` opaque and the external
DetectionFunction (`ResistanceDetector.process_single_candle_pair`) an
oracle parameter.  Only the state touched by one iteration of
`_process_stream` (lines 204-217) and by `_process_candle`
(lines 231-288) is modelled. -/

/-- Per-stream `SpikeProcessor` state: the breaker built in `__init__`
(lines 112-120, reported in metrics but — see `processStreamIter` — never
interposed on the fetch), the shared `StreamBuffer`, the
`real_time_notifications` feature flag, the previously observed candle for
this (instrument, timeframe) pair (`self.last_candles[...]`), and the
`total_candles_received` / `total_notifications_sent` counters of
`SpikeDetectionMetrics`. -/
structure SpikeStream (C E : Type) where
  circuit_breaker : CircuitBreaker
  buffer : StreamBuffer E
  notifications_enabled : Bool
  last_candle : Option C
  candles_received : Nat
  notifications_sent : Nat

/-- `SpikeProcessor._process_candle`: if a previous candle exists, run the
detector on the (prev, curr) pair; on a detected event add it to the
buffer and, when live notifications are enabled, deliver it (the
RetryPolicy-guarded `_send_notification`); finally record the current
candle as last. -/
def SpikeStream.processCandle {C E : Type} (s : SpikeStream C E)
    (detect : C → C → Option E) (candle : C) : SpikeStream C E :=
  let s' :=
    match s.last_candle with
    | some prev =>
      match detect prev candle with
      | some ev =>
        let s1 := { s with buffer := s.buffer.add ev }
        if s1.notifications_enabled then
          { s1 with notifications_sent := s1.notifications_sent + 1 }
        else s1
      | none => s
    | none => s
  { s' with last_candle := some candle }

/-- One iteration of the `while self._running` body of
`SpikeProcessor._process_stream` (lines 205-217).  The external fetch
collaborator `_fetch_latest_candle` is consulted by the direct call
`candle = await self._fetch_latest_candle(instrument, timeframe)` on
line 207 — not through `self.circuit_breaker.call` — so the embedding
invokes the fetch oracle unconditionally and reports `fetchInvoked = true`
on every path; `fetched` is the oracle's response.  If a candle arrived,
record it in the metrics and process it. -/
def SpikeStream.processStreamIter {C E : Type} (s : SpikeStream C E)
    (detect : C → C → Option E) (fetched : Option C) :
    SpikeStream C E × Bool :=
  let fetchInvoked := true
  match fetched with
  | some candle =>
    let s1 := { s with candles_received := s.candles_received + 1 }
    (s1.processCandle detect candle, fetchInvoked)
  | none => (s, fetchInvoked)

/-! ### BatchProcessor work-item generation
(services/batch_processor.py lines 480-534)

Dates (`datetime`) are modelled as integer day numbers, so
`timedelta(days=7)` is `+ 7`. -/

/-- One generated work item. -/
structure WorkItem where
  instrument : String
  timeframe : String
  start_date : Int
  end_date : Int
deriving Repr, DecidableEq

/-- `checkpoint_data` of a resumable job: `last_instrument`,
`last_timeframe`, `last_date`. -/
structure Checkpoint where
  last_instrument : String
  last_timeframe : String
  last_date : Int
deriving Repr, DecidableEq

/-- The `BatchJob` fields read by `_generate_work_items`. -/
structure BatchJobCfg where
  instruments : List String
  timeframes : List String
  start_date : Int
  end_date : Int
  checkpoint_data : Option Checkpoint
deriving Repr, DecidableEq

/-- The inner `while current_date < job.end_date` chunking loop: emit
`[current, min(current + 7, end))` windows until the end date is
reached. -/
def chunkDates (current_date end_date : Int) : List (Int × Int) :=
  if current_date < end_date then
    let chunk_end := min (current_date + 7) end_date
    (current_date, chunk_end) :: chunkDates chunk_end end_date
  else
    []
termination_by (end_date - current_date).toNat
decreasing_by
  omega

/-- `BatchProcessor._generate_work_items(job, resume_from_checkpoint)`.
When resuming with checkpoint data present, the instrument and timeframe
lists are truncated at the positions of the checkpointed entries
(`job.instruments[job.instruments.index(start_instrument):]`, likewise
for timeframes) and the date range starts at the checkpointed
`last_date`; `list.index` raising `ValueError` on a missing entry is the
`none` result.  Work items are one date chunk per instrument × timeframe
combination, instruments outermost. -/
def generate_work_items (job : BatchJobCfg) (resume_from_checkpoint : Bool) :
    Option (List WorkItem) :=
  let lists : Option (List String × List String × Int) :=
    match resume_from_checkpoint, job.checkpoint_data with
    | true, some cp =>
      match job.instruments.findIdx? (· == cp.last_instrument),
            job.timeframes.findIdx? (· == cp.last_timeframe) with
      | some i, some k =>
        some (job.instruments.drop i, job.timeframes.drop k, cp.last_date)
      | _, _ => none
    | _, _ => some (job.instruments, job.timeframes, job.start_date)
  lists.map fun (instruments, timeframes, start_date) =>
    instruments.flatMap fun instrument =>
      timeframes.flatMap fun timeframe =>
        (chunkDates start_date job.end_date).map fun w =>
          ⟨instrument, timeframe, w.1, w.2⟩

/-! ### JobQueue (core/queue.py) and the CPython `heapq` algorithms

`JobQueue` stores its pending `QueuedTask`s in a Python list manipulated
exclusively through `heapq.heappush` / `heapq.heappop` / `heapq.heapify`;
those stdlib routines are embedded below exactly as CPython implements
them (`_siftdown` bubbles a new item up towards the root, `_siftup`
trickles the hole at `pos` down to a leaf and then calls `_siftdown`),
with the in-place array mutation rendered as `List.set`.
`QueuedTask.__lt__` compares by `priority` alone (lower number = more
urgent), so all heap comparisons below are on `.priority`. -/

/-- `QueuedTask` (queue.py lines 28-40); the `payload` dict and
`execute_func` play no role in ordering or dispatch and are opaque
strings / absent. -/
structure QueuedTask where
  task_id : String
  job_id : String
  priority : Int
  payload : String
  created_at : Int
deriving Repr, DecidableEq

/-- Priority of the entry at index `i` (the key `__lt__` compares);
0 for an out-of-range index — every use below is in range. -/
def prio (l : List QueuedTask) (i : Nat) : Int :=
  match l[i]? with
  | some t => t.priority
  | none => 0

/-- Parent index in the implicit binary heap: `(pos - 1) >> 1`. -/
def parentIdx (j : Nat) : Nat := (j - 1) / 2

/-- CPython `heapq._siftdown(heap, startpos, pos)` with the moving item
`newitem` (read off `heap[pos]` by the caller) passed explicitly: bubble
the hole at `pos` up, pulling each parent greater than `newitem` down,
until `startpos` or a parent `<= newitem`, then drop `newitem` in. -/
def siftdown (heap : List QueuedTask) (startpos pos : Nat)
    (newitem : QueuedTask) : List QueuedTask :=
  if h : startpos < pos then
    let parentpos := parentIdx pos
    match heap[parentpos]? with
    | some parent =>
      if newitem.priority < parent.priority then
        siftdown (heap.set pos parent) startpos parentpos newitem
      else heap.set pos newitem
    | none => heap.set pos newitem
  else heap.set pos newitem
termination_by pos
decreasing_by
  simp only [parentIdx]
  omega

/-- CPython `heapq._siftup(heap, pos)` main loop, `startpos` and
`newitem` already peeled off: repeatedly move the smaller child into the
hole at `pos` and descend, until `pos` has no child, then bubble
`newitem` back up from the leaf with `_siftdown`. -/
def siftupAux (heap : List QueuedTask) (startpos pos : Nat)
    (newitem : QueuedTask) : List QueuedTask :=
  if h : 2 * pos + 1 < heap.length then
    let cpos :=
      if 2 * pos + 2 < heap.length ∧
          ¬ prio heap (2 * pos + 1) < prio heap (2 * pos + 2) then
        2 * pos + 2
      else
        2 * pos + 1
    match heap[cpos]? with
    | some child => siftupAux (heap.set pos child) startpos cpos newitem
    | none => heap.set pos newitem
  else
    siftdown heap startpos pos newitem
termination_by heap.length - pos
decreasing_by
  simp only [List.length_set]
  split <;> omega

/-- CPython `heapq._siftup(heap, pos)`: `newitem = heap[pos]`,
`startpos = pos`. -/
def siftup (heap : List QueuedTask) (pos : Nat) : List QueuedTask :=
  match heap[pos]? with
  | some newitem => siftupAux heap pos pos newitem
  | none => heap

/-- CPython `heapq.heappush`: append, then `_siftdown(heap, 0, len-1)`. -/
def heappush (heap : List QueuedTask) (item : QueuedTask) : List QueuedTask :=
  siftdown (heap ++ [item]) 0 heap.length item

/-- CPython `heapq.heappop`: pop the last element; if the heap is still
non-empty, take the root as the return value, move the popped last
element into the root and `_siftup(heap, 0)`.  `none` is the IndexError
on an empty heap (the source guards `if not self.queue`). -/
def heappop : List QueuedTask → Option (QueuedTask × List QueuedTask)
  | [] => none
  | [x] => some (x, [])
  | x :: y :: rest =>
    let lastelt := (x :: y :: rest).getLast (by simp)
    some (x, siftup (lastelt :: (y :: rest).dropLast) 0)

/-- CPython `heapq.heapify` unrolled: process indices
`n//2 - 1, …, 1, 0` (this helper applied to `i` processes `i-1, …, 0`). -/
def heapifyAux (l : List QueuedTask) : Nat → List QueuedTask
  | 0 => l
  | i + 1 => heapifyAux (siftup l i) i

/-- CPython `heapq.heapify`: `for i in reversed(range(n//2)): _siftup(x, i)`. -/
def heapify (l : List QueuedTask) : List QueuedTask :=
  heapifyAux l (l.length / 2)

/-- `JobQueue` state touched by the queueing operations: `queue` (the
heap list), the key set of the `running_tasks` dict in insertion order
(the mapped `asyncio.Task` values are irrelevant to the claims), and
`max_concurrent`. -/
structure JobQueue where
  max_concurrent : Nat
  queue : List QueuedTask
  running_tasks : List String
deriving Repr, DecidableEq

/-- `JobQueue.__init__(max_concurrent)`: empty queue, nothing running. -/
def JobQueue.mk0 (max_concurrent : Nat) : JobQueue := ⟨max_concurrent, [], []⟩

/-- Python dict key insertion `running_tasks[task_id] = …`: a fresh key
is appended, an existing key keeps the key set unchanged. -/
def insertKey (ks : List String) (k : String) : List String :=
  if k ∈ ks then ks else ks ++ [k]

/-- `JobQueue.add_task` (lines 97-133): build the task and
`heapq.heappush` it. -/
def JobQueue.add_task (q : JobQueue) (t : QueuedTask) : JobQueue :=
  { q with queue := heappush q.queue t }

/-- `JobQueue._get_next_task` (lines 212-228): `None` on an empty queue;
`None` when `len(running_tasks) >= max_concurrent`; otherwise
`heapq.heappop` the highest-priority task and mark it running. -/
def JobQueue.get_next_task (q : JobQueue) : Option QueuedTask × JobQueue :=
  if q.queue.isEmpty then (none, q)
  else if q.max_concurrent ≤ q.running_tasks.length then (none, q)
  else
    match heappop q.queue with
    | some (task, rest) =>
      (some task, { q with queue := rest,
                           running_tasks := insertKey q.running_tasks task.task_id })
    | none => (none, q)

/-- Worker completion or failure (lines 171-197): on either path the
worker deletes `task_id` from `running_tasks` if present. -/
def JobQueue.finish_task (q : JobQueue) (id : String) : JobQueue :=
  { q with running_tasks := q.running_tasks.erase id }

/-- `JobQueue.cancel_task` (lines 282-308): filter the task out of the
pending queue and, if anything was removed, `heapq.heapify` the rest
(a running task is only cooperatively cancelled; `running_tasks` is not
modified here). -/
def JobQueue.cancel_task (q : JobQueue) (id : String) : JobQueue :=
  let filtered := q.queue.filter fun t => t.task_id != id
  if filtered.length < q.queue.length then { q with queue := heapify filtered }
  else q

/-- The states a `JobQueue` can reach from construction through its
operations. -/
inductive JobQueue.Reach : JobQueue → Prop where
  | init (m : Nat) : Reach (JobQueue.mk0 m)
  | add {q : JobQueue} (t : QueuedTask) : Reach q → Reach (q.add_task t)
  | next {q : JobQueue} : Reach q → Reach (q.get_next_task).2
  | finish {q : JobQueue} (id : String) : Reach q → Reach (q.finish_task id)
  | cancel {q : JobQueue} (id : String) : Reach q → Reach (q.cancel_task id)

/-- The binary min-heap invariant of CPython's `heapq`, on priorities:
every non-root entry is at least its parent. -/
def IsHeap (l : List QueuedTask) : Prop :=
  ∀ j, 0 < j → j < l.length → prio l (parentIdx j) ≤ prio l j

/-- `inTree r j`: index `r` is an ancestor of (or equal to) index `j` in
the implicit binary tree. -/
def inTree (r : Nat) : Nat → Bool := fun j =>
  if j = r then true
  else if j < r then false
  else inTree r (parentIdx j)
termination_by j => j
decreasing_by
  simp only [parentIdx]
  omega

/-- The heap invariant restricted to the subtree rooted at `r`: every
edge whose parent endpoint lies in that subtree is ordered. -/
def SubtreeHeap (l : List QueuedTask) (r : Nat) : Prop :=
  ∀ j, 0 < j → j < l.length → inTree r (parentIdx j) = true →
    prio l (parentIdx j) ≤ prio l j

/-- The subtree rooted at `r` is heap-ordered except on the edges
touching the hole at `pos` (the index a sift is about to overwrite). -/
def HeapExceptHole (l : List QueuedTask) (r pos : Nat) : Prop :=
  ∀ j, 0 < j → j < l.length → inTree r (parentIdx j) = true →
    j ≠ pos → parentIdx j ≠ pos → prio l (parentIdx j) ≤ prio l j

/-- Both children of the hole at `pos` (when in range) are at least the
item `x` destined for the hole. -/
def HoleChildrenGe (l : List QueuedTask) (pos : Nat) (x : QueuedTask) : Prop :=
  ∀ j, 0 < j → j < l.length → parentIdx j = pos → x.priority ≤ prio l j

/-- Both children of the hole at `pos` (when in range) are at least the
entry above the hole — vacuous when the hole is the subtree root `r`. -/
def HoleChildrenGeParent (l : List QueuedTask) (r pos : Nat) : Prop :=
  pos ≠ r → ∀ j, 0 < j → j < l.length → parentIdx j = pos →
    prio l (parentIdx pos) ≤ prio l j

/-! ## Theorems -/

/-! ### RetryPolicy lemmas -/

/-- Running the retry loop from attempt `a` against an always-failing
function performs the remaining `max_retries - a + 1` invocations, sleeps
one computed delay per non-final attempt, and ends with the exception of
the final attempt. -/
lemma executeFrom_always_fail {E A : Type} (p : RetryPolicy)
    (f : Nat → Except E A) (errs : Nat → E) (rand : Nat → Rat)
    (hf : ∀ n, f n = .error (errs n)) :
    ∀ (n a : Nat), a ≤ p.max_retries → p.max_retries - a = n →
      p.executeFrom f rand a =
        (.error (errs p.max_retries), p.max_retries - a + 1,
         (List.range (p.max_retries - a)).map fun k =>
           p.calculate_delay (a + k) (rand (a + k))) := by
  intro n
  induction n with
  | zero =>
    intro a ha hn
    have haq : a = p.max_retries := by omega
    rw [RetryPolicy.executeFrom, hf a]
    simp only [haq, Nat.lt_irrefl, if_neg (lt_irrefl p.max_retries)]
    simp
  | succ n ih =>
    intro a ha hn
    have halt : a < p.max_retries := by omega
    rw [RetryPolicy.executeFrom, hf a]
    simp only [if_pos halt]
    rw [ih (a + 1) (by omega) (by omega)]
    refine Prod.ext rfl (Prod.ext (by simp; omega) ?_)
    simp only [show p.max_retries - a = n + 1 from hn,
               show p.max_retries - (a + 1) = n from by omega]
    rw [List.range_succ_eq_map]
    simp only [List.map_cons, List.map_map, Nat.add_zero]
    refine congrArg₂ _ rfl ?_
    refine List.map_congr_left fun k _ => ?_
    have : a + Nat.succ k = a + 1 + k := by omega
    simp [Function.comp, this]

/-! ### C4 -/

/-- Claim C4: with `max_retries = 3`, `RetryPolicy.execute` against a
function that fails on every invocation calls it exactly 4 times
(`max_retries + 1` attempts) and then re-raises the exception produced by
the final (fourth) attempt unchanged. -/
theorem retry_exhausts_and_reraises_final {E A : Type} (p : RetryPolicy)
    (f : Nat → Except E A) (errs : Nat → E) (rand : Nat → Rat)
    (hmr : p.max_retries = 3) (hf : ∀ n, f n = .error (errs n)) :
    (p.execute f rand).1 = .error (errs 3) ∧ (p.execute f rand).2.1 = 4 := by
  have h := executeFrom_always_fail p f errs rand hf p.max_retries 0 (by omega) (by omega)
  rw [RetryPolicy.execute, h, hmr]
  exact ⟨rfl, rfl⟩

/-- Witness for C4 at a concrete policy and failure stream. -/
theorem retry_exhausts_and_reraises_final_witness :
    ((mkRetryPolicy 3 1 60 2 2 false).execute
        (fun n => (Except.error n : Except Nat Unit)) (fun _ => 0)).1 =
      .error 3 ∧
    ((mkRetryPolicy 3 1 60 2 2 false).execute
        (fun n => (Except.error n : Except Nat Unit)) (fun _ => 0)).2.1 = 4 :=
  retry_exhausts_and_reraises_final (mkRetryPolicy 3 1 60 2 2 false)
    (fun n => Except.error n) (fun n => n) (fun _ => 0) rfl (fun _ => rfl)

/-! ### C5 -/

/-- Counterexample to claim C5: for the policy with `initial_delay = 1`,
`backoff_factor = 2`, `max_delay = 60`, no jitter, against an
always-failing function, the delay slept before attempt 1 (the first
retry; attempts numbered from 0) is `1`, whereas the claimed formula
`min(initial_delay * backoff_factor ^ 1, max_delay)` gives `2`; the slept
delays are `[1, 2, 4]`, i.e. the exponent lags the attempt number by
one. -/
theorem delay_formula_counterexample :
    ((mkRetryPolicy 3 1 60 2 2 false).execute
        (fun n => (Except.error n : Except Nat Unit)) (fun _ => 0)).2.2 =
      [1, 2, 4] ∧
    ¬ ((1 : Rat) = min ((1 : Rat) * 2 ^ (1 : Nat)) 60) := by
  constructor
  · have h := executeFrom_always_fail (mkRetryPolicy 3 1 60 2 2 false)
      (fun n => (Except.error n : Except Nat Unit)) (fun n => n) (fun _ => 0)
      (fun _ => rfl) 3 0 (by decide) (by decide)
    rw [RetryPolicy.execute, h]
    norm_num [mkRetryPolicy, RetryPolicy.calculate_delay, List.range_succ]
  · norm_num

/-- Claim C5 as amended: `__init__` always leaves
`backoff_factor = exponential_base`, and for every policy with that
property, run against an always-failing function, the delay slept before
attempt `i` (`i ≥ 1`, attempts numbered from 0) is
`min(initial_delay * backoff_factor ^ (i - 1), max_delay)`; with jitter
enabled it is that value scaled by the uniform factor
`0.5 + random() ∈ [0.5, 1.5)`. -/
theorem delay_formula_amended :
    (∀ mr i0 m0 eb bf j, (mkRetryPolicy mr i0 m0 eb bf j).backoff_factor =
        (mkRetryPolicy mr i0 m0 eb bf j).exponential_base) ∧
    ∀ (E A : Type) (p : RetryPolicy) (f : Nat → Except E A) (errs : Nat → E)
      (rand : Nat → Rat), (∀ n, f n = .error (errs n)) →
      p.backoff_factor = p.exponential_base →
      ∀ i, 1 ≤ i → i ≤ p.max_retries →
        ((p.execute f rand).2.2[i - 1]? =
          some (p.calculate_delay (i - 1) (rand (i - 1)))) ∧
        (p.jitter = false →
          p.calculate_delay (i - 1) (rand (i - 1)) =
            min (p.initial_delay * p.backoff_factor ^ (i - 1)) p.max_delay) ∧
        (p.jitter = true → 0 ≤ rand (i - 1) → rand (i - 1) < 1 →
          p.calculate_delay (i - 1) (rand (i - 1)) =
            min (p.initial_delay * p.backoff_factor ^ (i - 1)) p.max_delay *
              (1/2 + rand (i - 1)) ∧
          1/2 ≤ 1/2 + rand (i - 1) ∧ 1/2 + rand (i - 1) < 3/2) := by
  constructor
  · intro mr i0 m0 eb bf j
    rfl
  · intro E A p f errs rand hf hbf i hi1 hile
    have h := executeFrom_always_fail p f errs rand hf p.max_retries 0
      (by omega) (by omega)
    refine ⟨?_, ?_, ?_⟩
    · rw [RetryPolicy.execute, h]
      simp only [Nat.sub_zero, Nat.zero_add]
      rw [List.getElem?_map, List.getElem?_range (by omega)]
      simp
    · intro hj
      simp [RetryPolicy.calculate_delay, hj, hbf]
    · intro hj h0 h1
      refine ⟨by simp [RetryPolicy.calculate_delay, hj, hbf], by linarith, by linarith⟩

/-- Witness for the amended C5 at a concrete jitter-free policy,
attempt 2. -/
theorem delay_formula_amended_witness :
    ((mkRetryPolicy 3 1 60 2 2 false).execute
          (fun n => (Except.error n : Except Nat Unit)) (fun _ => 0)).2.2[1]? =
        some ((mkRetryPolicy 3 1 60 2 2 false).calculate_delay 1 0) ∧
      (mkRetryPolicy 3 1 60 2 2 false).calculate_delay 1 0 =
        min ((mkRetryPolicy 3 1 60 2 2 false).initial_delay *
          (mkRetryPolicy 3 1 60 2 2 false).backoff_factor ^ (1 : Nat))
          (mkRetryPolicy 3 1 60 2 2 false).max_delay := by
  have h := (delay_formula_amended.2 Nat Unit (mkRetryPolicy 3 1 60 2 2 false)
    (fun n => Except.error n) (fun n => n) (fun _ => 0) (fun _ => rfl) rfl
    2 (by norm_num) (by norm_num [mkRetryPolicy]))
  exact ⟨h.1, h.2.1 rfl⟩

/-! ### C6 -/

/-- Counterexample to claim C6: adding `0,1,2,3,4` to an empty
`StreamBuffer` with `max_size = 3` leaves `[2, 3, 4]` — three items, not
the claimed `[3, 4]` (the repository's own
`test_buffer_overflow` asserts the same `[2, 3, 4]`). `total_dropped = 2`
does hold. -/
theorem streambuffer_overflow_counterexample :
    ((((((StreamBuffer.mk0 Nat 3).add 0).add 1).add 2).add 3).add 4).buf =
        [2, 3, 4] ∧
      ((((((StreamBuffer.mk0 Nat 3).add 0).add 1).add 2).add 3).add 4).items_dropped = 2 ∧
      ([2, 3, 4] : List Nat) ≠ [3, 4] := by
  refine ⟨rfl, rfl, by decide⟩

/-- Claim C6 as amended: starting from an empty `StreamBuffer` with
`max_size = 3`, performing `add 0, …, add 4` in order leaves the buffer
containing exactly the newest `max_size` items `[2, 3, 4]` in FIFO order,
with `total_dropped = 2` (the two oldest items were discarded; the
producer is never blocked — `add` is total). -/
theorem streambuffer_overflow_amended :
    ((((((StreamBuffer.mk0 Nat 3).add 0).add 1).add 2).add 3).add 4).buf =
        [2, 3, 4] ∧
      ((((((StreamBuffer.mk0 Nat 3).add 0).add 1).add 2).add 3).add 4).items_dropped = 2 ∧
      ((((((StreamBuffer.mk0 Nat 3).add 0).add 1).add 2).add 3).add 4).items_added = 5 := by
  exact ⟨rfl, rfl, rfl⟩

/-! ### C8 -/

/-- Claim C8: `update_progress` is additive — on a job with
`total_items = 100` and zeroed counters, `update_progress 10 2` yields
exactly 10% and a following `update_progress 40 0` exactly 50%; after
every call with `total_items > 0` the invariant
`progress_percentage = processed_items / total_items * 100` holds; and
with non-negative arguments neither counter ever decreases. -/
theorem update_progress_additive :
    (∀ j : BatchJobProgress, j.total_items = 100 → j.processed_items = 0 →
      (j.update_progress 10 2).progress_percentage = 10 ∧
      ((j.update_progress 10 2).update_progress 40 0).progress_percentage = 50) ∧
    (∀ (j : BatchJobProgress) (p f : Int), 0 < j.total_items →
      (j.update_progress p f).progress_percentage =
        ((j.update_progress p f).processed_items : Rat) /
          ((j.update_progress p f).total_items : Rat) * 100) ∧
    (∀ (j : BatchJobProgress) (p f : Int), 0 ≤ p → 0 ≤ f →
      j.processed_items ≤ (j.update_progress p f).processed_items ∧
      j.failed_items ≤ (j.update_progress p f).failed_items) := by
  refine ⟨?_, ?_, ?_⟩
  · intro j ht hp
    constructor
    · simp [BatchJobProgress.update_progress, ht, hp]
    · simp [BatchJobProgress.update_progress, ht, hp]
  · intro j p f ht
    simp [BatchJobProgress.update_progress, if_pos ht]
  · intro j p f hp hf
    simp only [BatchJobProgress.update_progress]
    split <;> constructor <;> simp <;> omega

/-- Witness for C8 on the concrete job of the claim. -/
theorem update_progress_additive_witness :
    (((⟨100, 0, 0, 0⟩ : BatchJobProgress).update_progress 10 2).progress_percentage = 10 ∧
      ((((⟨100, 0, 0, 0⟩ : BatchJobProgress).update_progress 10 2).update_progress 40 0).progress_percentage = 50)) ∧
    (⟨100, 0, 0, 0⟩ : BatchJobProgress).processed_items ≤
      ((⟨100, 0, 0, 0⟩ : BatchJobProgress).update_progress 10 2).processed_items :=
  ⟨update_progress_additive.1 ⟨100, 0, 0, 0⟩ rfl rfl,
   (update_progress_additive.2.2 ⟨100, 0, 0, 0⟩ 10 2 (by norm_num) (by norm_num)).1⟩

/-! ### C10 -/

/-- Claim C10: on a job with `total_items = 0` and non-negative
arguments, `update_progress` still increments both counters and returns
normally (the `total_items > 0` guard skips the percentage division, so
no division by zero can occur), leaving `progress_percentage`
unchanged. -/
theorem update_progress_zero_total_safe :
    ∀ (j : BatchJobProgress) (p f : Int), j.total_items = 0 → 0 ≤ p → 0 ≤ f →
      (j.update_progress p f).processed_items = j.processed_items + p ∧
      (j.update_progress p f).failed_items = j.failed_items + f ∧
      (j.update_progress p f).progress_percentage = j.progress_percentage := by
  intro j p f ht hp hf
  have : ¬ (0 : Int) < j.total_items := by omega
  simp [BatchJobProgress.update_progress, this]

/-- Witness for C10 at a concrete zero-total job. -/
theorem update_progress_zero_total_safe_witness :
    ((⟨0, 1, 2, 5⟩ : BatchJobProgress).update_progress 3 4).processed_items = 1 + 3 ∧
    ((⟨0, 1, 2, 5⟩ : BatchJobProgress).update_progress 3 4).failed_items = 2 + 4 ∧
    ((⟨0, 1, 2, 5⟩ : BatchJobProgress).update_progress 3 4).progress_percentage = 5 :=
  update_progress_zero_total_safe ⟨0, 1, 2, 5⟩ 3 4 rfl (by norm_num) (by norm_num)

/-! ### CircuitBreaker lemmas -/

/-- While CLOSED with `failure_count` failures already recorded, a run of
`failure_threshold - failure_count` further consecutive failing calls
goes through (the CLOSED pre-check never rejects) and leaves the breaker
OPEN. -/
lemma callSeq_failures_open (ts : List Int) :
    ∀ cb : CircuitBreaker, cb.state = .closed →
      cb.failure_count + ts.length = cb.config.failure_threshold →
      ts ≠ [] →
      ∃ cb', cb.callSeq .failure ts = some cb' ∧ cb'.state = .opened ∧
        cb'.config = cb.config := by
  induction ts with
  | nil => intro cb _ _ hne; exact absurd rfl hne
  | cons t ts ih =>
    intro cb hst hcount _
    have hpre : cb.callPre t = some cb := by
      unfold CircuitBreaker.callPre
      rw [hst]
    have hcall : cb.call t .failure = some (cb.on_failure t) := by
      unfold CircuitBreaker.call
      rw [hpre]
      rfl
    rcases ts with _ | ⟨t', ts'⟩
    · -- final failure: the threshold is reached, the breaker opens
      have hth : cb.config.failure_threshold ≤ cb.failure_count + 1 := by
        simp at hcount; omega
      have hopen : cb.on_failure t =
          { cb with failure_count := cb.failure_count + 1,
                    last_failure_time := some t, state := .opened } := by
        unfold CircuitBreaker.on_failure
        rw [hst]
        simp only [if_pos hth]
      refine ⟨cb.on_failure t, ?_, by rw [hopen], by rw [hopen]⟩
      unfold CircuitBreaker.callSeq
      rw [hcall]
      rfl
    · -- an intermediate failure: strictly below threshold, stays CLOSED
      have hlt : ¬ cb.config.failure_threshold ≤ cb.failure_count + 1 := by
        simp at hcount; omega
      have hnext : cb.on_failure t =
          { cb with failure_count := cb.failure_count + 1,
                    last_failure_time := some t } := by
        unfold CircuitBreaker.on_failure
        rw [hst]
        simp only [if_neg hlt]
      obtain ⟨cb', h1, h2, h3⟩ := ih
        { cb with failure_count := cb.failure_count + 1,
                  last_failure_time := some t }
        hst (by simp at hcount ⊢; omega) (by simp)
      refine ⟨cb', ?_, h2, h3⟩
      unfold CircuitBreaker.callSeq
      rw [hcall, hnext]
      exact h1

/-- While HALF_OPEN with `success_count` successes already recorded, a
run of `success_threshold - success_count` further consecutive successful
calls goes through and closes the breaker with both counters reset. -/
lemma callSeq_successes_close (ts : List Int) :
    ∀ cb : CircuitBreaker, cb.state = .halfOpen →
      cb.success_count + ts.length = cb.config.success_threshold →
      ts ≠ [] →
      ∃ cb', cb.callSeq .success ts = some cb' ∧ cb'.state = .closed ∧
        cb'.failure_count = 0 ∧ cb'.success_count = 0 := by
  induction ts with
  | nil => intro cb _ _ hne; exact absurd rfl hne
  | cons t ts ih =>
    intro cb hst hcount _
    have hpre : cb.callPre t = some cb := by
      unfold CircuitBreaker.callPre
      rw [hst]
    have hcall : cb.call t .success = some cb.on_success := by
      unfold CircuitBreaker.call
      rw [hpre]
      rfl
    rcases ts with _ | ⟨t', ts'⟩
    · have hth : cb.config.success_threshold ≤ cb.success_count + 1 := by
        simp at hcount; omega
      have hclose : cb.on_success =
          { cb with state := .closed, failure_count := 0, success_count := 0 } := by
        unfold CircuitBreaker.on_success
        rw [hst]
        simp only [if_pos hth]
      refine ⟨cb.on_success, ?_, by rw [hclose], by rw [hclose], by rw [hclose]⟩
      unfold CircuitBreaker.callSeq
      rw [hcall]
      rfl
    · have hlt : ¬ cb.config.success_threshold ≤ cb.success_count + 1 := by
        simp at hcount; omega
      have hnext : cb.on_success = { cb with success_count := cb.success_count + 1 } := by
        unfold CircuitBreaker.on_success
        rw [hst]
        simp only [if_neg hlt]
      obtain ⟨cb', h1, h2⟩ := ih { cb with success_count := cb.success_count + 1 }
        hst (by simp at hcount ⊢; omega) (by simp)
      refine ⟨cb', ?_, h2⟩
      unfold CircuitBreaker.callSeq
      rw [hcall, hnext]
      exact h1

/-! ### C1 -/

/-- Claim C1: the `CircuitBreaker` 3-state machine — a breaker starts
CLOSED; `failure_threshold` consecutive failures while CLOSED open it;
a call while OPEN after `recovery_timeout` seconds have elapsed since
`last_failure_time` moves it to HALF_OPEN and proceeds;
`success_threshold` consecutive successes while HALF_OPEN close it with
`failure_count` and `success_count` reset to 0; any single failure while
HALF_OPEN reopens it; and a success while CLOSED resets `failure_count`
to 0. -/
theorem circuit_breaker_fsm :
    (∀ cfg, (CircuitBreaker.init cfg).state = .closed ∧
      (CircuitBreaker.init cfg).failure_count = 0 ∧
      (CircuitBreaker.init cfg).success_count = 0) ∧
    (∀ (cb : CircuitBreaker) (ts : List Int), cb.state = .closed →
      cb.failure_count = 0 → 1 ≤ cb.config.failure_threshold →
      ts.length = cb.config.failure_threshold →
      ∃ cb', cb.callSeq .failure ts = some cb' ∧ cb'.state = .opened) ∧
    (∀ (cb : CircuitBreaker) (now t : Int), cb.state = .opened →
      cb.last_failure_time = some t → cb.config.recovery_timeout ≤ now - t →
      cb.callPre now = some { cb with state := .halfOpen }) ∧
    (∀ (cb : CircuitBreaker) (ts : List Int), cb.state = .halfOpen →
      cb.success_count = 0 → 1 ≤ cb.config.success_threshold →
      ts.length = cb.config.success_threshold →
      ∃ cb', cb.callSeq .success ts = some cb' ∧ cb'.state = .closed ∧
        cb'.failure_count = 0 ∧ cb'.success_count = 0) ∧
    (∀ (cb : CircuitBreaker) (now : Int), cb.state = .halfOpen →
      ∃ cb', cb.call now .failure = some cb' ∧ cb'.state = .opened) ∧
    (∀ (cb : CircuitBreaker) (now : Int), cb.state = .closed →
      ∃ cb', cb.call now .success = some cb' ∧ cb'.failure_count = 0) := by
  refine ⟨fun cfg => ⟨rfl, rfl, rfl⟩, ?_, ?_, ?_, ?_, ?_⟩
  · intro cb ts hst hfc hth hlen
    obtain ⟨cb', h1, h2, _⟩ := callSeq_failures_open ts cb hst (by omega)
      (by intro h; rw [h] at hlen; simp at hlen; omega)
    exact ⟨cb', h1, h2⟩
  · intro cb now t hst hlf helapsed
    unfold CircuitBreaker.callPre
    rw [hst]
    have : cb.should_attempt_reset now = true := by
      unfold CircuitBreaker.should_attempt_reset
      rw [hlf]
      simpa using helapsed
    rw [this]
    simp
  · intro cb ts hst hsc hth hlen
    exact callSeq_successes_close ts cb hst (by omega)
      (by intro h; rw [h] at hlen; simp at hlen; omega)
  · intro cb now hst
    have hpre : cb.callPre now = some cb := by
      unfold CircuitBreaker.callPre
      rw [hst]
    refine ⟨cb.on_failure now, ?_, ?_⟩
    · unfold CircuitBreaker.call
      rw [hpre]
      rfl
    · unfold CircuitBreaker.on_failure
      rw [hst]
  · intro cb now hst
    have hpre : cb.callPre now = some cb := by
      unfold CircuitBreaker.callPre
      rw [hst]
    refine ⟨cb.on_success, ?_, ?_⟩
    · unfold CircuitBreaker.call
      rw [hpre]
      rfl
    · unfold CircuitBreaker.on_success
      rw [hst]

/-- Witness for C1 at the config `{failure_threshold := 2,
recovery_timeout := 30, success_threshold := 1}`. -/
theorem circuit_breaker_fsm_witness :
    ((CircuitBreaker.init ⟨2, 30, 1⟩).state = .closed ∧
      (CircuitBreaker.init ⟨2, 30, 1⟩).failure_count = 0 ∧
      (CircuitBreaker.init ⟨2, 30, 1⟩).success_count = 0) ∧
    (∃ cb', (CircuitBreaker.init ⟨2, 30, 1⟩).callSeq .failure [0, 1] = some cb' ∧
      cb'.state = .opened) ∧
    ((⟨⟨2, 30, 1⟩, .opened, 2, 0, some 1⟩ : CircuitBreaker).callPre 40 =
      some { (⟨⟨2, 30, 1⟩, .opened, 2, 0, some 1⟩ : CircuitBreaker) with
               state := .halfOpen }) ∧
    (∃ cb', (⟨⟨2, 30, 1⟩, .halfOpen, 2, 0, some 1⟩ : CircuitBreaker).callSeq
        .success [50] = some cb' ∧ cb'.state = .closed ∧
      cb'.failure_count = 0 ∧ cb'.success_count = 0) ∧
    (∃ cb', (⟨⟨2, 30, 1⟩, .halfOpen, 2, 0, some 1⟩ : CircuitBreaker).call 50
        .failure = some cb' ∧ cb'.state = .opened) ∧
    (∃ cb', (⟨⟨2, 30, 1⟩, .closed, 1, 0, some 1⟩ : CircuitBreaker).call 50
        .success = some cb' ∧ cb'.failure_count = 0) :=
  ⟨circuit_breaker_fsm.1 ⟨2, 30, 1⟩,
   circuit_breaker_fsm.2.1 (CircuitBreaker.init ⟨2, 30, 1⟩) [0, 1] rfl rfl
     (by decide) rfl,
   circuit_breaker_fsm.2.2.1 ⟨⟨2, 30, 1⟩, .opened, 2, 0, some 1⟩ 40 1 rfl rfl
     (by norm_num),
   circuit_breaker_fsm.2.2.2.1 ⟨⟨2, 30, 1⟩, .halfOpen, 2, 0, some 1⟩ [50] rfl rfl
     (by norm_num) rfl,
   circuit_breaker_fsm.2.2.2.2.1 ⟨⟨2, 30, 1⟩, .halfOpen, 2, 0, some 1⟩ 50 rfl,
   circuit_breaker_fsm.2.2.2.2.2 ⟨⟨2, 30, 1⟩, .closed, 1, 0, some 1⟩ 50 rfl⟩

/-! ### C7 -/

/-- Counterexample to claim C7: with the stream's circuit breaker OPEN
(`failure_threshold = 3`, `recovery_timeout = 30`, last failure at time
100) and the recovery timeout not elapsed at time 105
(`should_attempt_reset = false`), one iteration of the
`_process_stream` polling loop still invokes the external fetch
collaborator — the loop calls `_fetch_latest_candle` directly, not
through `circuit_breaker.call`, so the claimed "never invoked" fails. -/
theorem spike_fetch_not_breaker_guarded_counterexample :
    (⟨⟨⟨3, 30, 2⟩, .opened, 3, 0, some 100⟩, StreamBuffer.mk0 Nat 500, false,
        none, 0, 0⟩ : SpikeStream Nat Nat).circuit_breaker.state = .opened ∧
    (⟨⟨⟨3, 30, 2⟩, .opened, 3, 0, some 100⟩, StreamBuffer.mk0 Nat 500, false,
        none, 0, 0⟩ : SpikeStream Nat Nat).circuit_breaker.should_attempt_reset
        105 = false ∧
    ((⟨⟨⟨3, 30, 2⟩, .opened, 3, 0, some 100⟩, StreamBuffer.mk0 Nat 500, false,
        none, 0, 0⟩ : SpikeStream Nat Nat).processStreamIter
        (fun _ _ => none) (some 7)).2 = true := by
  refine ⟨rfl, by decide, rfl⟩

/-- Claim C7 as amended: every iteration of the `_process_stream` polling
loop invokes the external fetch collaborator directly (not through the
processor's `CircuitBreaker`), so the fetch is performed even while that
breaker is OPEN with its recovery timeout not yet elapsed. -/
theorem spike_fetch_not_breaker_guarded {C E : Type} (s : SpikeStream C E)
    (detect : C → C → Option E) (fetched : Option C) (now : Int)
    (hopen : s.circuit_breaker.state = .opened)
    (hnotelapsed : s.circuit_breaker.should_attempt_reset now = false) :
    (s.processStreamIter detect fetched).2 = true := by
  cases fetched <;> rfl

/-- Witness for the amended C7 at the concrete OPEN, not-elapsed state. -/
theorem spike_fetch_not_breaker_guarded_witness :
    ((⟨⟨⟨3, 30, 2⟩, .opened, 3, 0, some 100⟩, StreamBuffer.mk0 Nat 500, false,
        none, 0, 0⟩ : SpikeStream Nat Nat).processStreamIter
        (fun _ _ => none) (some 7)).2 = true :=
  spike_fetch_not_breaker_guarded
    ⟨⟨⟨3, 30, 2⟩, .opened, 3, 0, some 100⟩, StreamBuffer.mk0 Nat 500, false,
      none, 0, 0⟩ (fun _ _ => none) (some 7) 105 rfl (by decide)

/-! ### Work-item generation lemmas -/

/-- A successful `findIdx?` points at a matching element. -/
lemma findIdx?_drop_cons {α : Type} (l : List α) (p : α → Bool) (k : Nat)
    (h : l.findIdx? p = some k) :
    ∃ x xs, l.drop k = x :: xs ∧ p x = true := by
  rw [List.findIdx?_eq_some_iff_getElem] at h
  obtain ⟨hk, hp, _⟩ := h
  have h1 : (l.drop k).head? = some l[k] := by
    rw [List.head?_drop]
    exact List.getElem?_eq_getElem hk
  cases hd : l.drop k with
  | nil => rw [hd] at h1; simp at h1
  | cons y ys =>
    rw [hd] at h1
    simp at h1
    exact ⟨y, ys, rfl, h1 ▸ hp⟩

/-- Unfolding of the chunking loop when the window is non-empty. -/
lemma chunkDates_pos {c e : Int} (h : c < e) :
    chunkDates c e = (c, min (c + 7) e) :: chunkDates (min (c + 7) e) e := by
  rw [chunkDates]
  simp [if_pos h]

/-- Every chunk the loop emits starts no earlier than the loop's starting
date. -/
lemma chunkDates_start_le :
    ∀ (n : Nat) (c e : Int), (e - c).toNat = n →
      ∀ w ∈ chunkDates c e, c ≤ w.1 := by
  intro n
  induction n using Nat.strong_induction_on with
  | _ n ih =>
    intro c e hn w hw
    rw [chunkDates] at hw
    by_cases hce : c < e
    · rw [if_pos hce] at hw
      have hmin : c < min (c + 7) e ∧ min (c + 7) e ≤ e :=
        ⟨lt_min (by omega) hce, min_le_right _ _⟩
      rcases List.mem_cons.mp hw with heq | hmem

      · rw [heq]
      · have := ih ((e - min (c + 7) e).toNat) (by omega) (min (c + 7) e) e rfl w hmem
        omega
    · rw [if_neg hce] at hw
      simp at hw

/-! ### C9 -/

/-- Claim C9: resuming a job over instruments
`["EUR_USD", "GBP_USD", "USD_JPY"]` from a checkpoint at
`last_instrument = "GBP_USD"`, `last_timeframe = "H1"` truncates both
lists at the checkpointed entries' positions: generation succeeds, the
first work item is for `GBP_USD`/`H1` starting exactly at the
checkpointed `last_date`, no work item mentions `EUR_USD`, and every
generated date window starts no earlier than `last_date`. -/
theorem resume_truncates_work_items (tfs : List String) (d e s0 : Int)
    (hmem : "H1" ∈ tfs) (hde : d < e) :
    ∃ items,
      generate_work_items ⟨["EUR_USD", "GBP_USD", "USD_JPY"], tfs, s0, e,
        some ⟨"GBP_USD", "H1", d⟩⟩ true = some items ∧
      items.head? = some ⟨"GBP_USD", "H1", d, min (d + 7) e⟩ ∧
      (∀ w ∈ items, w.instrument ≠ "EUR_USD") ∧
      (∀ w ∈ items, d ≤ w.start_date) := by
  obtain ⟨k, hk⟩ : ∃ k, tfs.findIdx? (· == "H1") = some k := by
    have hs : (tfs.findIdx? (· == "H1")).isSome = true := by
      rw [List.findIdx?_isSome, List.any_eq_true]
      exact ⟨"H1", hmem, by simp⟩
    cases hh : tfs.findIdx? (· == "H1") with
    | none => rw [hh] at hs; simp at hs
    | some k => exact ⟨k, rfl⟩
  obtain ⟨x, tr, htr, hx⟩ := findIdx?_drop_cons tfs (· == "H1") k hk
  have hxH1 : x = "H1" := by simpa using hx
  subst hxH1
  refine ⟨("H1" :: tr).flatMap (fun tf => (chunkDates d e).map fun w =>
      (⟨"GBP_USD", tf, w.1, w.2⟩ : WorkItem)) ++
    ("H1" :: tr).flatMap (fun tf => (chunkDates d e).map fun w =>
      (⟨"USD_JPY", tf, w.1, w.2⟩ : WorkItem)), ?_, ?_, ?_, ?_⟩
  · unfold generate_work_items
    simp only []
    rw [show (["EUR_USD", "GBP_USD", "USD_JPY"] : List String).findIdx?
        (· == "GBP_USD") = some 1 from rfl]
    rw [hk]
    simp only [Option.map_some]
    rw [show (["EUR_USD", "GBP_USD", "USD_JPY"] : List String).drop 1 =
        ["GBP_USD", "USD_JPY"] from rfl, htr]
    simp [List.flatMap_cons, List.flatMap_nil]
  · rw [chunkDates_pos hde]
    simp
  · intro w hw
    rcases List.mem_append.mp hw with h | h <;>
    · obtain ⟨tf, _, hw2⟩ := List.mem_flatMap.mp h
      obtain ⟨c, _, rfl⟩ := List.mem_map.mp hw2
      simp
  · intro w hw
    rcases List.mem_append.mp hw with h | h <;>
    · obtain ⟨tf, _, hw2⟩ := List.mem_flatMap.mp h
      obtain ⟨c, hc, rfl⟩ := List.mem_map.mp hw2
      exact chunkDates_start_le ((e - d).toNat) d e rfl c hc

/-- Witness for C9 at a concrete timeframe list and date window. -/
theorem resume_truncates_work_items_witness :
    ∃ items,
      generate_work_items ⟨["EUR_USD", "GBP_USD", "USD_JPY"], ["H1", "H4"],
        (-5), 2, some ⟨"GBP_USD", "H1", 0⟩⟩ true = some items ∧
      items.head? = some ⟨"GBP_USD", "H1", 0, min (0 + 7) 2⟩ ∧
      (∀ w ∈ items, w.instrument ≠ "EUR_USD") ∧
      (∀ w ∈ items, 0 ≤ w.start_date) :=
  resume_truncates_work_items ["H1", "H4"] 0 2 (-5) (by decide) (by decide)

/-! ### Heap index and `prio` lemmas -/

lemma prio_congr {l m : List QueuedTask} {j : Nat} (h : l[j]? = m[j]?) :
    prio l j = prio m j := by
  unfold prio
  rw [h]

lemma prio_of_getElem? {l : List QueuedTask} {j : Nat} {t : QueuedTask}
    (h : l[j]? = some t) : prio l j = t.priority := by
  unfold prio
  rw [h]

lemma prio_set_ne {l : List QueuedTask} {n j : Nat} {a : QueuedTask}
    (h : n ≠ j) : prio (l.set n a) j = prio l j :=
  prio_congr (List.getElem?_set_ne h)

lemma prio_set_self {l : List QueuedTask} {n : Nat} {a : QueuedTask}
    (h : n < l.length) : prio (l.set n a) n = a.priority := by
  unfold prio
  simp [List.getElem?_set_self, h]

lemma prio_append_left {l m : List QueuedTask} {j : Nat} (h : j < l.length) :
    prio (l ++ m) j = prio l j :=
  prio_congr (List.getElem?_append_left h)

lemma exists_getElem?_of_lt {l : List QueuedTask} {j : Nat} (h : j < l.length) :
    ∃ t, l[j]? = some t :=
  ⟨l[j], List.getElem?_eq_getElem h⟩

lemma mem_of_getElem?_some {l : List QueuedTask} {j : Nat} {t : QueuedTask}
    (h : l[j]? = some t) : t ∈ l := by
  obtain ⟨hj, rfl⟩ := List.getElem?_eq_some_iff.mp h
  exact List.getElem_mem hj

/-! ### `inTree` lemmas -/

lemma inTree_self (r : Nat) : inTree r r = true := by
  rw [inTree]
  simp

lemma inTree_le : ∀ (j r : Nat), inTree r j = true → r ≤ j := by
  intro j
  induction j using Nat.strong_induction_on with
  | _ j ih =>
    intro r h
    rw [inTree] at h
    by_cases h1 : j = r
    · omega
    · rw [if_neg h1] at h
      by_cases h2 : j < r
      · rw [if_pos h2] at h
        exact absurd h (by simp)
      · omega

lemma inTree_parent {r j : Nat} (hne : j ≠ r) (h : inTree r j = true) :
    inTree r (parentIdx j) = true := by
  rw [inTree] at h
  rw [if_neg hne] at h
  by_cases h2 : j < r
  · rw [if_pos h2] at h
    exact absurd h (by simp)
  · rw [if_neg h2] at h
    exact h

lemma inTree_child {r p j : Nat} (hp : inTree r p = true) (hj : 0 < j)
    (hpar : parentIdx j = p) : inTree r j = true := by
  have hrp : r ≤ p := inTree_le p r hp
  have hpj : p < j := by
    simp only [parentIdx] at hpar
    omega
  rw [inTree]
  by_cases h1 : j = r
  · rw [if_pos h1]
  · rw [if_neg h1, if_neg (by omega), hpar]
    exact hp

lemma inTree_zero : ∀ j, inTree 0 j = true := by
  intro j
  induction j using Nat.strong_induction_on with
  | _ j ih =>
    rw [inTree]
    by_cases h1 : j = 0
    · rw [if_pos h1]
    · rw [if_neg h1, if_neg (by omega)]
      exact ih (parentIdx j) (by simp only [parentIdx]; omega)

lemma isHeap_iff_subtreeHeap_zero (l : List QueuedTask) :
    IsHeap l ↔ SubtreeHeap l 0 := by
  constructor
  · intro h j hj hlen _
    exact h j hj hlen
  · intro h j hj hlen
    exact h j hj hlen (inTree_zero _)

/-! ### Sift length and membership lemmas -/

lemma siftdown_length : ∀ (pos : Nat) (l : List QueuedTask) (s : Nat)
    (x : QueuedTask), (siftdown l s pos x).length = l.length := by
  intro pos
  induction pos using Nat.strong_induction_on with
  | _ pos ih =>
    intro l s x
    rw [siftdown]
    by_cases h : s < pos
    · rw [dif_pos h]
      cases hp : l[parentIdx pos]? with
      | some parent =>
        simp only [hp]
        by_cases hlt : x.priority < parent.priority
        · rw [if_pos hlt, ih (parentIdx pos) (by simp only [parentIdx]; omega)]
          exact List.length_set ..
        · rw [if_neg hlt]
          exact List.length_set ..
      | none =>
        simp only [hp]
        exact List.length_set ..
    · rw [dif_neg h]
      exact List.length_set ..

lemma siftdown_subset : ∀ (pos : Nat) (l : List QueuedTask) (s : Nat)
    (x a : QueuedTask), a ∈ siftdown l s pos x → a ∈ l ∨ a = x := by
  intro pos
  induction pos using Nat.strong_induction_on with
  | _ pos ih =>
    intro l s x a ha
    rw [siftdown] at ha
    by_cases h : s < pos
    · rw [dif_pos h] at ha
      cases hp : l[parentIdx pos]? with
      | some parent =>
        simp only [hp] at ha
        by_cases hlt : x.priority < parent.priority
        · rw [if_pos hlt] at ha
          rcases ih (parentIdx pos) (by simp only [parentIdx]; omega) _ s x a ha with h1 | h1
          · rcases List.mem_or_eq_of_mem_set h1 with h2 | h2
            · exact Or.inl h2
            · exact Or.inl (h2 ▸ mem_of_getElem?_some hp)
          · exact Or.inr h1
        · rw [if_neg hlt] at ha
          rcases List.mem_or_eq_of_mem_set ha with h1 | h1
          · exact Or.inl h1
          · exact Or.inr h1
      | none =>
        simp only [hp] at ha
        rcases List.mem_or_eq_of_mem_set ha with h1 | h1
        · exact Or.inl h1
        · exact Or.inr h1
    · rw [dif_neg h] at ha
      rcases List.mem_or_eq_of_mem_set ha with h1 | h1
      · exact Or.inl h1
      · exact Or.inr h1

lemma siftupAux_length : ∀ (n : Nat) (l : List QueuedTask) (s pos : Nat)
    (x : QueuedTask), l.length - pos = n →
    (siftupAux l s pos x).length = l.length := by
  intro n
  induction n using Nat.strong_induction_on with
  | _ n ih =>
    intro l s pos x hn
    rw [siftupAux]
    by_cases h : 2 * pos + 1 < l.length
    · rw [dif_pos h]
      by_cases hc : 2 * pos + 2 < l.length ∧
          ¬ prio l (2 * pos + 1) < prio l (2 * pos + 2)
      · simp only [if_pos hc]
        cases hp : l[2 * pos + 2]? with
        | some child =>
          rw [ih (l.length - (2 * pos + 2)) (by omega) _ s (2 * pos + 2) x
            (by simp)]
          exact List.length_set ..
        | none => exact List.length_set ..
      · simp only [if_neg hc]
        cases hp : l[2 * pos + 1]? with
        | some child =>
          rw [ih (l.length - (2 * pos + 1)) (by omega) _ s (2 * pos + 1) x
            (by simp)]
          exact List.length_set ..
        | none => exact List.length_set ..
    · rw [dif_neg h]
      exact siftdown_length pos l s x

lemma siftupAux_subset : ∀ (n : Nat) (l : List QueuedTask) (s pos : Nat)
    (x a : QueuedTask), l.length - pos = n →
    a ∈ siftupAux l s pos x → a ∈ l ∨ a = x := by
  intro n
  induction n using Nat.strong_induction_on with
  | _ n ih =>
    intro l s pos x a hn ha
    rw [siftupAux] at ha
    by_cases h : 2 * pos + 1 < l.length
    · rw [dif_pos h] at ha
      by_cases hc : 2 * pos + 2 < l.length ∧
          ¬ prio l (2 * pos + 1) < prio l (2 * pos + 2)
      · simp only [if_pos hc] at ha
        cases hp : l[2 * pos + 2]? with
        | some child =>
          rw [hp] at ha
          rcases ih (l.length - (2 * pos + 2)) (by omega) _ s (2 * pos + 2) x a
            (by simp) ha with h1 | h1
          · rcases List.mem_or_eq_of_mem_set h1 with h2 | h2
            · exact Or.inl h2
            · exact Or.inl (h2 ▸ mem_of_getElem?_some hp)
          · exact Or.inr h1
        | none =>
          rw [hp] at ha
          rcases List.mem_or_eq_of_mem_set ha with h1 | h1
          · exact Or.inl h1
          · exact Or.inr h1
      · simp only [if_neg hc] at ha
        cases hp : l[2 * pos + 1]? with
        | some child =>
          rw [hp] at ha
          rcases ih (l.length - (2 * pos + 1)) (by omega) _ s (2 * pos + 1) x a
            (by simp) ha with h1 | h1
          · rcases List.mem_or_eq_of_mem_set h1 with h2 | h2
            · exact Or.inl h2
            · exact Or.inl (h2 ▸ mem_of_getElem?_some hp)
          · exact Or.inr h1
        | none =>
          rw [hp] at ha
          rcases List.mem_or_eq_of_mem_set ha with h1 | h1
          · exact Or.inl h1
          · exact Or.inr h1
    · rw [dif_neg h] at ha
      exact siftdown_subset pos l s x a ha

lemma siftup_length (l : List QueuedTask) (pos : Nat) :
    (siftup l pos).length = l.length := by
  unfold siftup
  cases hp : l[pos]? with
  | some newitem => exact siftupAux_length (l.length - pos) l pos pos newitem rfl
  | none => rfl

lemma siftup_subset {l : List QueuedTask} {pos : Nat} {a : QueuedTask}
    (ha : a ∈ siftup l pos) : a ∈ l := by
  unfold siftup at ha
  cases hp : l[pos]? with
  | some newitem =>
    rw [hp] at ha
    rcases siftupAux_subset (l.length - pos) l pos pos newitem a rfl ha with h | h
    · exact h
    · exact h ▸ mem_of_getElem?_some hp
  | none =>
    rw [hp] at ha
    exact ha

/-! ### Bubble-up (`_siftdown`) correctness -/

/-- CPython `_siftdown` restores the heap invariant on the subtree rooted
at `r` when started on a hole at `pos` whose children dominate both the
incoming item and the entry above the hole, and it never writes outside
that subtree. -/
lemma siftdown_correct : ∀ (pos : Nat) (l : List QueuedTask) (r : Nat)
    (x : QueuedTask), pos < l.length → inTree r pos = true →
    HeapExceptHole l r pos → HoleChildrenGe l pos x →
    HoleChildrenGeParent l r pos →
    SubtreeHeap (siftdown l r pos x) r ∧
    (∀ j, inTree r j = false → (siftdown l r pos x)[j]? = l[j]?) := by
  intro pos
  induction pos using Nat.strong_induction_on with
  | _ pos ih =>
    intro l r x hlen htree hhe hcg hcgp
    rw [siftdown]
    by_cases h : r < pos
    · -- the hole still has room to bubble up inside the subtree
      rw [dif_pos h]
      have hppos_lt : parentIdx pos < pos := by simp only [parentIdx]; omega
      have hpplen : parentIdx pos < l.length := by omega
      obtain ⟨parent, hp⟩ := exists_getElem?_of_lt hpplen
      simp only [hp]
      have hppr_tree : inTree r (parentIdx pos) = true :=
        inTree_parent (by omega) htree
      have hprio_pp : prio l (parentIdx pos) = parent.priority :=
        prio_of_getElem? hp
      by_cases hlt : x.priority < parent.priority
      · -- pull the parent down into the hole and recurse on the parent slot
        rw [if_pos hlt]
        have hhe' : HeapExceptHole (l.set pos parent) r (parentIdx pos) := by
          intro j hj hjlen hpt hjne hpjne
          rw [List.length_set] at hjlen
          by_cases hjp : j = pos
          · exact absurd (by rw [hjp]) hpjne
          · by_cases hpjp : parentIdx j = pos
            · rw [hpjp, prio_set_self hlen, prio_set_ne (Ne.symm hjp)]
              have h1 := hcgp (by omega) j hj hjlen hpjp
              rw [hprio_pp] at h1
              exact h1
            · rw [prio_set_ne (Ne.symm hjp), prio_set_ne (Ne.symm hpjp)]
              exact hhe j hj hjlen hpt hjp hpjp
        have hcg' : HoleChildrenGe (l.set pos parent) (parentIdx pos) x := by
          intro j hj hjlen hpj
          rw [List.length_set] at hjlen
          by_cases hjp : j = pos
          · rw [hjp, prio_set_self hlen]
            exact le_of_lt hlt
          · rw [prio_set_ne (Ne.symm hjp)]
            have h1 : prio l (parentIdx j) ≤ prio l j :=
              hhe j hj hjlen (by rw [hpj]; exact hppr_tree) hjp
                (by rw [hpj]; omega)
            rw [hpj, hprio_pp] at h1
            exact le_trans (le_of_lt hlt) h1
        have hcgp' : HoleChildrenGeParent (l.set pos parent) r (parentIdx pos) := by
          intro hner j hj hjlen hpj
          rw [List.length_set] at hjlen
          have hpp_pos : 0 < parentIdx pos := by
            have hrle := inTree_le (parentIdx pos) r hppr_tree
            omega
          have hgp_ne_pos : parentIdx (parentIdx pos) ≠ pos := by
            simp only [parentIdx]
            omega
          have hgp_tree : inTree r (parentIdx (parentIdx pos)) = true :=
            inTree_parent hner hppr_tree
          have hstep : prio l (parentIdx (parentIdx pos)) ≤ prio l (parentIdx pos) :=
            hhe (parentIdx pos) hpp_pos hpplen hgp_tree (by omega) hgp_ne_pos
          rw [prio_set_ne (Ne.symm hgp_ne_pos)]
          by_cases hjp : j = pos
          · rw [hjp, prio_set_self hlen]
            rw [hprio_pp] at hstep
            exact hstep
          · rw [prio_set_ne (Ne.symm hjp)]
            have h1 : prio l (parentIdx j) ≤ prio l j :=
              hhe j hj hjlen (by rw [hpj]; exact hppr_tree) hjp
                (by rw [hpj]; omega)
            rw [hpj] at h1
            exact le_trans hstep h1
        obtain ⟨hsub, hout⟩ := ih (parentIdx pos) hppos_lt (l.set pos parent) r x
          (by rw [List.length_set]; omega) hppr_tree hhe' hcg' hcgp'
        refine ⟨hsub, fun j hfalse => ?_⟩
        have hjpos : pos ≠ j := fun hh => by
          rw [← hh, htree] at hfalse
          cases hfalse
        rw [hout j hfalse]
        exact List.getElem?_set_ne hjpos
      · -- the parent is small enough: drop the item into the hole
        rw [if_neg hlt]
        constructor
        · intro j hj hjlen hpt
          rw [List.length_set] at hjlen
          by_cases hpjp : parentIdx j = pos
          · have hjne : pos ≠ j := by simp only [parentIdx] at hpjp; omega
            rw [hpjp, prio_set_self hlen, prio_set_ne hjne]
            exact hcg j hj hjlen hpjp
          · by_cases hjp : j = pos
            · have hpne : pos ≠ parentIdx pos := by omega
              rw [hjp, prio_set_self hlen, prio_set_ne hpne, hprio_pp]
              exact le_of_not_lt hlt
            · rw [prio_set_ne (Ne.symm hjp), prio_set_ne (Ne.symm hpjp)]
              exact hhe j hj hjlen hpt hjp hpjp
        · intro j hfalse
          have hjpos : pos ≠ j := fun hh => by
            rw [← hh, htree] at hfalse
            cases hfalse
          exact List.getElem?_set_ne hjpos
    · -- the hole reached the subtree root: place the item there
      have hpr : pos = r := by
        have := inTree_le pos r htree
        omega
      rw [dif_neg h]
      constructor
      · intro j hj hjlen hpt
        rw [List.length_set] at hjlen
        by_cases hpjp : parentIdx j = pos
        · have hjne : pos ≠ j := by simp only [parentIdx] at hpjp; omega
          rw [hpjp, prio_set_self hlen, prio_set_ne hjne]
          exact hcg j hj hjlen hpjp
        · by_cases hjp : j = pos
          · exfalso
            rw [hjp, hpr] at hpt
            have hle := inTree_le (parentIdx r) r hpt
            have : parentIdx r < r ∨ r = 0 := by simp only [parentIdx]; omega
            rcases this with h1 | h1
            · omega
            · rw [hjp, hpr, h1] at hpjp
              simp only [parentIdx] at hpjp
              omega
          · rw [prio_set_ne (Ne.symm hjp), prio_set_ne (Ne.symm hpjp)]
            exact hhe j hj hjlen hpt hjp hpjp
      · intro j hfalse
        have hjpos : pos ≠ j := fun hh => by
          rw [← hh, htree] at hfalse
          cases hfalse
        exact List.getElem?_set_ne hjpos

/-! ### Trickle-down (`_siftup`) correctness -/

/-- One descent step of `_siftup`: moving the minimal child `child` from
`cpos` into the hole at `pos` re-establishes all the invariants with the
hole now at `cpos`. -/
lemma siftupAux_step {l : List QueuedTask} {r pos cpos : Nat}
    (hpos : pos < l.length) (hcl : cpos < l.length) (hpc : parentIdx cpos = pos)
    (hpclt : pos < cpos)
    (hmin : ∀ j, 0 < j → j < l.length → parentIdx j = pos →
      prio l cpos ≤ prio l j)
    (htree : inTree r pos = true) (hhe : HeapExceptHole l r pos)
    (hcgp : HoleChildrenGeParent l r pos)
    {child : QueuedTask} (hchild : l[cpos]? = some child) :
    inTree r cpos = true ∧
    HeapExceptHole (l.set pos child) r cpos ∧
    HoleChildrenGeParent (l.set pos child) r cpos := by
  have hctree : inTree r cpos = true := inTree_child htree (by omega) hpc
  have hchild_prio : prio l cpos = child.priority := prio_of_getElem? hchild
  refine ⟨hctree, ?_, ?_⟩
  · intro j hj hjlen hpt hjne hpjne
    rw [List.length_set] at hjlen
    by_cases hjp : j = pos
    · -- the freshly filled slot against its own parent
      subst hjp
      have hpp_ne : j ≠ parentIdx j := by simp only [parentIdx]; omega
      rw [prio_set_ne hpp_ne, prio_set_self hpos, ← hchild_prio]
      have hrj : r < j := by
        have := inTree_le (parentIdx j) r hpt
        have : parentIdx j < j := by simp only [parentIdx]; omega
        omega
      exact hcgp (by omega) cpos (by omega) hcl hpc
    · by_cases hpjp : parentIdx j = pos
      · -- a sibling of the minimal child
        rw [hpjp, prio_set_self hpos, prio_set_ne (Ne.symm hjp), ← hchild_prio]
        exact hmin j hj hjlen hpjp
      · rw [prio_set_ne (Ne.symm hjp), prio_set_ne (Ne.symm hpjp)]
        exact hhe j hj hjlen hpt hjp hpjp
  · intro hner j hj hjlen hpj
    rw [List.length_set] at hjlen
    have hjgt : cpos < j := by simp only [parentIdx] at hpj; omega
    have hjne_pos : j ≠ pos := by omega
    rw [hpc, prio_set_self hpos, prio_set_ne (Ne.symm hjne_pos), ← hchild_prio]
    have h1 : prio l (parentIdx j) ≤ prio l j :=
      hhe j hj hjlen (by rw [hpj]; exact hctree) hjne_pos (by omega)
    rw [hpj] at h1
    exact h1

/-- CPython `_siftup` restores the heap invariant on the subtree rooted
at `r` when started on a hole at `pos` (with the item to place read off
the hole), and never writes outside that subtree. -/
lemma siftupAux_correct : ∀ (n : Nat) (l : List QueuedTask) (r pos : Nat)
    (x : QueuedTask), l.length - pos = n → pos < l.length →
    inTree r pos = true → HeapExceptHole l r pos →
    HoleChildrenGeParent l r pos →
    SubtreeHeap (siftupAux l r pos x) r ∧
    (∀ j, inTree r j = false → (siftupAux l r pos x)[j]? = l[j]?) := by
  intro n
  induction n using Nat.strong_induction_on with
  | _ n ih =>
    intro l r pos x hn hpos htree hhe hcgp
    rw [siftupAux]
    by_cases h : 2 * pos + 1 < l.length
    · rw [dif_pos h]
      by_cases hc : 2 * pos + 2 < l.length ∧
          ¬ prio l (2 * pos + 1) < prio l (2 * pos + 2)
      · -- the right child is the smaller one
        simp only [if_pos hc]
        obtain ⟨child, hchild⟩ := exists_getElem?_of_lt (show 2 * pos + 2 < l.length from hc.1)
        simp only [hchild]
        have hmin : ∀ j, 0 < j → j < l.length → parentIdx j = pos →
            prio l (2 * pos + 2) ≤ prio l j := by
          intro j hj hjlen hpj
          simp only [parentIdx] at hpj
          have : j = 2 * pos + 1 ∨ j = 2 * pos + 2 := by omega
          rcases this with h1 | h1
          · rw [h1]; exact le_of_not_lt hc.2
          · rw [h1]
        obtain ⟨hctree, hhe', hcgp'⟩ := siftupAux_step hpos hc.1
          (by simp only [parentIdx]; omega) (by omega) hmin htree hhe hcgp hchild
        obtain ⟨hsub, hout⟩ := ih (l.length - (2 * pos + 2)) (by omega)
          (l.set pos child) r (2 * pos + 2) x (by simp)
          (by rw [List.length_set]; exact hc.1) hctree hhe' hcgp'
        refine ⟨hsub, fun j hfalse => ?_⟩
        have hjpos : pos ≠ j := fun hh => by
          rw [← hh, htree] at hfalse
          cases hfalse
        rw [hout j hfalse]
        exact List.getElem?_set_ne hjpos
      · -- the left child is the smaller one
        simp only [if_neg hc]
        obtain ⟨child, hchild⟩ := exists_getElem?_of_lt h
        simp only [hchild]
        have hmin : ∀ j, 0 < j → j < l.length → parentIdx j = pos →
            prio l (2 * pos + 1) ≤ prio l j := by
          intro j hj hjlen hpj
          simp only [parentIdx] at hpj
          have : j = 2 * pos + 1 ∨ j = 2 * pos + 2 := by omega
          rcases this with h1 | h1
          · rw [h1]
          · rw [h1]
            by_cases h2 : 2 * pos + 2 < l.length
            · have h3 : prio l (2 * pos + 1) < prio l (2 * pos + 2) := by
                by_contra h4
                exact hc ⟨h2, h4⟩
              exact le_of_lt h3
            · omega
        obtain ⟨hctree, hhe', hcgp'⟩ := siftupAux_step hpos h
          (by simp only [parentIdx]; omega) (by omega) hmin htree hhe hcgp hchild
        obtain ⟨hsub, hout⟩ := ih (l.length - (2 * pos + 1)) (by omega)
          (l.set pos child) r (2 * pos + 1) x (by simp)
          (by rw [List.length_set]; exact h) hctree hhe' hcgp'
        refine ⟨hsub, fun j hfalse => ?_⟩
        have hjpos : pos ≠ j := fun hh => by
          rw [← hh, htree] at hfalse
          cases hfalse
        rw [hout j hfalse]
        exact List.getElem?_set_ne hjpos
    · -- no child in range: the hole is a leaf, bubble the item back up
      rw [dif_neg h]
      have hcg : HoleChildrenGe l pos x := by
        intro j hj hjlen hpj
        simp only [parentIdx] at hpj
        omega
      exact siftdown_correct pos l r x hpos htree hhe hcg hcgp

/-- `siftup` (with `startpos = pos`) turns "heap except at the root of
the subtree" into a heap on that subtree. -/
lemma siftup_correct (l : List QueuedTask) (r : Nat) (hr : r < l.length)
    (hhe : HeapExceptHole l r r) :
    SubtreeHeap (siftup l r) r ∧
    (∀ j, inTree r j = false → (siftup l r)[j]? = l[j]?) := by
  unfold siftup
  obtain ⟨newitem, hp⟩ := exists_getElem?_of_lt hr
  simp only [hp]
  exact siftupAux_correct (l.length - r) l r r newitem rfl hr (inTree_self r)
    hhe (fun hner => absurd rfl hner)

/-! ### `heappush`, `heappop`, `heapify` preserve the heap invariant -/

lemma heappush_isHeap {l : List QueuedTask} (hl : IsHeap l) (t : QueuedTask) :
    IsHeap (heappush l t) := by
  unfold heappush
  rw [isHeap_iff_subtreeHeap_zero]
  have hlen1 : (l ++ [t]).length = l.length + 1 := by simp
  refine (siftdown_correct l.length (l ++ [t]) 0 t (by omega) (inTree_zero _)
    ?_ ?_ ?_).1
  · intro j hj hjlen hpt hjne hpjne
    rw [hlen1] at hjlen
    have hjl : j < l.length := by omega
    have hpl : parentIdx j < l.length := by simp only [parentIdx]; omega
    rw [prio_append_left hjl, prio_append_left hpl]
    exact hl j hj hjl
  · intro j hj hjlen hpj
    rw [hlen1] at hjlen
    simp only [parentIdx] at hpj
    omega
  · intro hner j hj hjlen hpj
    rw [hlen1] at hjlen
    simp only [parentIdx] at hpj
    omega

lemma isHeap_root_le {l : List QueuedTask} (hl : IsHeap l) :
    ∀ j, j < l.length → prio l 0 ≤ prio l j := by
  intro j
  induction j using Nat.strong_induction_on with
  | _ j ih =>
    intro hjlen
    by_cases hj : j = 0
    · rw [hj]
    · have h1 : prio l (parentIdx j) ≤ prio l j := hl j (by omega) hjlen
      have h2 : parentIdx j < j := by simp only [parentIdx]; omega
      exact le_trans (ih (parentIdx j) h2 (by omega)) h1

lemma prio_of_mem {l : List QueuedTask} {u : QueuedTask} (h : u ∈ l) :
    ∃ i, i < l.length ∧ prio l i = u.priority := by
  obtain ⟨i, hi, rfl⟩ := List.getElem_of_mem h
  exact ⟨i, hi, prio_of_getElem? (List.getElem?_eq_getElem hi)⟩

/-- `heappop` on a heap returns a heap together with an element no
larger (by priority) than anything left behind. -/
lemma heappop_correct {l : List QueuedTask} (hl : IsHeap l)
    {t : QueuedTask} {rest : List QueuedTask}
    (h : heappop l = some (t, rest)) :
    IsHeap rest ∧ (∀ u ∈ rest, t.priority ≤ u.priority) := by
  match l, h with
  | [x], h =>
    simp only [heappop, Option.some.injEq, Prod.mk.injEq] at h
    obtain ⟨rfl, rfl⟩ := h
    exact ⟨fun j hj hlen => by simp at hlen, fun u hu => by simp at hu⟩
  | x :: y :: rs, h =>
    simp only [heappop, Option.some.injEq, Prod.mk.injEq] at h
    obtain ⟨rfl, hrest⟩ := h
    set lastelt := (x :: y :: rs).getLast (by simp) with hlast
    set m : List QueuedTask := lastelt :: (y :: rs).dropLast with hm
    have hmlen : m.length = rs.length + 1 := by
      rw [hm]
      simp
    have hmlen' : m.length = (x :: y :: rs).length - 1 := by
      rw [hmlen]
      simp
    -- entries of `m` and of the original heap agree above the root
    have hsame : ∀ i, 0 < i → i < m.length → m[i]? = (x :: y :: rs)[i]? := by
      intro i hi hilen
      rw [hm]
      match i, hi with
      | i + 1, _ =>
        rw [List.getElem?_cons_succ, List.getElem?_cons_succ,
          List.getElem?_dropLast]
        rw [if_pos (by rw [hmlen] at hilen; simp; omega)]
    have hsame_prio : ∀ i, 0 < i → i < m.length →
        prio m i = prio (x :: y :: rs) i := fun i hi hilen =>
      prio_congr (hsame i hi hilen)
    have hhe : HeapExceptHole m 0 0 := by
      intro j hj hjlen hpt hjne hpjne
      have hpj_pos : 0 < parentIdx j := by omega
      have hpj_lt : parentIdx j < j := by simp only [parentIdx]; omega
      rw [hsame_prio j hj hjlen, hsame_prio (parentIdx j) hpj_pos (by omega)]
      exact hl j hj (by rw [hmlen'] at hjlen; simp at hjlen ⊢; omega)
    obtain ⟨hsub, _⟩ := siftup_correct m 0 (by omega) hhe
    constructor
    · rw [← hrest, isHeap_iff_subtreeHeap_zero]
      exact hsub
    · intro u hu
      rw [← hrest] at hu
      have humem : u ∈ m := siftup_subset hu
      have horig : u ∈ x :: y :: rs := by
        rw [hm] at humem
        rcases List.mem_cons.mp humem with h1 | h1
        · rw [h1, hlast]
          exact List.getLast_mem _
        · have := List.dropLast_subset (y :: rs) h1
          exact List.mem_cons_of_mem x this
      obtain ⟨i, hilen, hiprio⟩ := prio_of_mem horig
      have hroot : prio (x :: y :: rs) 0 = x.priority := prio_of_getElem? rfl
      have := isHeap_root_le hl i hilen
      rw [hroot, hiprio] at this
      exact this

/-- The identity case of `siftup` when the index is out of range. -/
lemma siftup_oob {l : List QueuedTask} {i : Nat} (h : l.length ≤ i) :
    siftup l i = l := by
  unfold siftup
  rw [List.getElem?_eq_none h]

lemma heapifyAux_isHeap : ∀ (i : Nat) (l : List QueuedTask),
    (∀ j, 0 < j → j < l.length → i ≤ parentIdx j →
      prio l (parentIdx j) ≤ prio l j) →
    IsHeap (heapifyAux l i) := by
  intro i
  induction i with
  | zero =>
    intro l h
    exact fun j hj hlen => h j hj hlen (Nat.zero_le _)
  | succ i ih =>
    intro l h
    show IsHeap (heapifyAux (siftup l i) i)
    by_cases hi : i < l.length
    · have hhe : HeapExceptHole l i i := by
        intro j hj hjlen hpt hjne hpjne
        have := inTree_le (parentIdx j) i hpt
        exact h j hj hjlen (by omega)
      obtain ⟨hsub, hout⟩ := siftup_correct l i hi hhe
      apply ih
      intro j hj hjlen hij
      rw [siftup_length] at hjlen
      cases hpt : inTree i (parentIdx j) with
      | true => exact hsub j hj (by rw [siftup_length]; exact hjlen) hpt
      | false =>
        have hp1 : i + 1 ≤ parentIdx j := by
          rcases Nat.eq_or_lt_of_le hij with he | hlt
          · exfalso
            rw [← he, inTree_self] at hpt
            cases hpt
          · omega
        have hjtree : inTree i j = false := by
          cases hjt : inTree i j with
          | false => rfl
          | true =>
            exfalso
            have hjne : j ≠ i := by
              have : parentIdx j < j := by simp only [parentIdx]; omega
              omega
            have := inTree_parent hjne hjt
            rw [hpt] at this
            cases this
        rw [prio_congr (hout (parentIdx j) hpt), prio_congr (hout j hjtree)]
        exact h j hj hjlen hp1
    · rw [siftup_oob (by omega)]
      apply ih
      intro j hj hjlen hij
      have : parentIdx j < j := by simp only [parentIdx]; omega
      omega

/-- CPython `heapify` establishes the heap invariant on any list. -/
lemma heapify_isHeap (l : List QueuedTask) : IsHeap (heapify l) := by
  unfold heapify
  apply heapifyAux_isHeap
  intro j hj hjlen hij
  exfalso
  simp only [parentIdx] at hij
  omega

/-! ### The `JobQueue` state invariant -/

/-- Every reachable `JobQueue` state keeps its pending list a binary
min-heap and its running set within the concurrency bound. -/
lemma reach_invariant : ∀ q : JobQueue, q.Reach →
    IsHeap q.queue ∧ q.running_tasks.length ≤ q.max_concurrent := by
  intro q hq
  induction hq with
  | init m =>
    exact ⟨fun j hj hlen => by simp [JobQueue.mk0] at hlen,
      by simp [JobQueue.mk0]⟩
  | add t _ ih => exact ⟨heappush_isHeap ih.1 t, ih.2⟩
  | @next q _ ih =>
    by_cases h1 : q.queue.isEmpty
    · simp only [JobQueue.get_next_task, if_pos h1]
      exact ih
    · by_cases h2 : q.max_concurrent ≤ q.running_tasks.length
      · simp only [JobQueue.get_next_task, if_neg h1, if_pos h2]
        exact ih
      · cases hp : heappop q.queue with
        | none =>
          simp only [JobQueue.get_next_task, if_neg h1, if_neg h2, hp]
          exact ih
        | some pr =>
          obtain ⟨t, rest⟩ := pr
          simp only [JobQueue.get_next_task, if_neg h1, if_neg h2, hp]
          refine ⟨(heappop_correct ih.1 hp).1, ?_⟩
          unfold insertKey
          split
          · exact le_of_lt (by omega)
          · rw [List.length_append]
            simp
            omega
  | finish id _ ih =>
    exact ⟨ih.1, le_trans (List.length_erase_le _ _) ih.2⟩
  | @cancel q id _ ih =>
    unfold JobQueue.cancel_task
    by_cases hfl : (q.queue.filter fun t => t.task_id != id).length < q.queue.length
    · simp only [if_pos hfl]
      exact ⟨heapify_isHeap _, ih.2⟩
    · simp only [if_neg hfl]
      exact ih

/-! ### C2 -/

/-- Claim C2: in every reachable `JobQueue` state the number of running
tasks is at most `max_concurrent`, and `_get_next_task` never dispatches
(returns `none` and leaves the state unchanged) when the bound is
already met, so the bound is preserved by every queue operation. -/
theorem running_tasks_bounded :
    (∀ q : JobQueue, q.Reach →
      q.running_tasks.length ≤ q.max_concurrent) ∧
    (∀ q : JobQueue, q.max_concurrent ≤ q.running_tasks.length →
      (q.get_next_task).1 = none ∧ (q.get_next_task).2 = q) := by
  constructor
  · exact fun q hq => (reach_invariant q hq).2
  · intro q h2
    unfold JobQueue.get_next_task
    by_cases h1 : q.queue.isEmpty
    · rw [if_pos h1]
      exact ⟨rfl, rfl⟩
    · rw [if_neg h1, if_pos h2]
      exact ⟨rfl, rfl⟩

/-- Witness for C2: a queue with `max_concurrent = 1` after one enqueue
and one dispatch, and the no-dispatch conclusion at a saturated state. -/
theorem running_tasks_bounded_witness :
    ((((JobQueue.mk0 1).add_task ⟨"t1", "j1", 5, "p", 0⟩).get_next_task).2.running_tasks.length ≤
      (((JobQueue.mk0 1).add_task ⟨"t1", "j1", 5, "p", 0⟩).get_next_task).2.max_concurrent) ∧
    (((⟨0, [], []⟩ : JobQueue).get_next_task).1 = none ∧
      ((⟨0, [], []⟩ : JobQueue).get_next_task).2 = ⟨0, [], []⟩) :=
  ⟨running_tasks_bounded.1 _
    (JobQueue.Reach.next (JobQueue.Reach.add _ (JobQueue.Reach.init 1))),
   running_tasks_bounded.2 ⟨0, [], []⟩ (by simp)⟩

/-! ### C3 -/

/-- Claim C3: whenever `_get_next_task` dequeues a task from a reachable
`JobQueue`, the dequeued task's priority is at most the priority of every
task still remaining in the queue (lower number = more urgent). -/
theorem dequeue_min_priority :
    ∀ q : JobQueue, q.Reach →
      ∀ (t : QueuedTask) (q' : JobQueue), q.get_next_task = (some t, q') →
        ∀ u ∈ q'.queue, t.priority ≤ u.priority := by
  intro q hq t q' hget u hu
  have hheap := (reach_invariant q hq).1
  unfold JobQueue.get_next_task at hget
  by_cases h1 : q.queue.isEmpty
  · rw [if_pos h1] at hget
    simp at hget
  · rw [if_neg h1] at hget
    by_cases h2 : q.max_concurrent ≤ q.running_tasks.length
    · rw [if_pos h2] at hget
      simp at hget
    · rw [if_neg h2] at hget
      cases hp : heappop q.queue with
      | none =>
        rw [hp] at hget
        simp at hget
      | some pr =>
        obtain ⟨t0, rest⟩ := pr
        rw [hp] at hget
        simp only [Prod.mk.injEq, Option.some.injEq] at hget
        obtain ⟨rfl, rfl⟩ := hget
        exact (heappop_correct hheap hp).2 u hu

/-- Witness for C3: enqueue priorities 5 then 3 with `max_concurrent = 2`;
the dispatched task has priority 3 and the one task remaining in the
queue has priority 5, so the dequeued priority is no larger. -/
theorem dequeue_min_priority_witness :
    (⟨"b", "j", 3, "p", 1⟩ : QueuedTask).priority ≤
      (⟨"a", "j", 5, "p", 0⟩ : QueuedTask).priority := by
  have hstate : ((JobQueue.mk0 2).add_task ⟨"a", "j", 5, "p", 0⟩).add_task
      ⟨"b", "j", 3, "p", 1⟩ =
      ⟨2, [⟨"b", "j", 3, "p", 1⟩, ⟨"a", "j", 5, "p", 0⟩], []⟩ := by
    simp [JobQueue.mk0, JobQueue.add_task, heappush, siftdown, parentIdx]
  have hpop : heappop [⟨"b", "j", 3, "p", 1⟩, ⟨"a", "j", 5, "p", 0⟩] =
      some (⟨"b", "j", 3, "p", 1⟩, [⟨"a", "j", 5, "p", 0⟩]) := by
    simp [heappop, siftup, siftupAux, siftdown, parentIdx, List.getLast]
  have heq : (((JobQueue.mk0 2).add_task ⟨"a", "j", 5, "p", 0⟩).add_task
      ⟨"b", "j", 3, "p", 1⟩).get_next_task =
      (some ⟨"b", "j", 3, "p", 1⟩,
        ⟨2, [⟨"a", "j", 5, "p", 0⟩], ["b"]⟩) := by
    rw [hstate]
    simp [JobQueue.get_next_task, hpop, insertKey]
  exact dequeue_min_priority _
    (JobQueue.Reach.add _ (JobQueue.Reach.add _ (JobQueue.Reach.init 2)))
    ⟨"b", "j", 3, "p", 1⟩ ⟨2, [⟨"a", "j", 5, "p", 0⟩], ["b"]⟩ heq
    ⟨"a", "j", 5, "p", 0⟩ (by simp)

end DataFactory
